import Mathlib

/-!
Verification of the rspirv code generators: the SPIR-V header generator
(`src/autogen/header.rs`) and the generated annotation builder
(`src/rspirv/dr/build/autogen_annotation.rs`).

The header generator is embedded as functions from the grammar data model to
the abstract content of the generated code: the canonical enumerant list, the
alias table, the `from_i64` match arms and the `required_capabilities` match
arms of each value-enum operand kind, and the opcode enumeration of the core
instruction set.  The semantics of the generated Rust (first-match semantics
of a `match`, the `n as u32` truncating cast) is embedded explicitly.

The annotation builder functions are embedded as state-passing functions on a
builder value.
-/

namespace structs

/-- Operand-kind category.  The spec's external interface gives the category
as one of flag-set (`BitEnum`), closed enumeration (`ValueEnum`) or other;
`Other` stands for every category the generator does not handle. -/
inductive Category
  | BitEnum
  | ValueEnum
  | Other
deriving DecidableEq

/-- One enumerant of an operand kind: symbol, numeric value (a u32 in the
grammar), and its ordered capability-name list. -/
structure Enumerant where
  symbol : String
  value : Nat
  capabilities : List String
deriving DecidableEq

/-- One operand kind of the grammar: category, kind name, ordered enumerants. -/
structure OperandKind where
  category : Category
  kind : String
  enumerants : List Enumerant
deriving DecidableEq

/-- One instruction of the core grammar: opname and opcode. -/
structure Instruction where
  opname : String
  opcode : Nat
deriving DecidableEq

/-- The core grammar. -/
structure Grammar where
  magic_number : Nat
  major_version : Nat
  minor_version : Nat
  revision : Nat
  operand_kinds : List OperandKind
  instructions : List Instruction

end structs

/-- First-match association-list lookup; models both `BTreeMap::get` (keys are
unique there) and the first-match semantics of a generated Rust `match` over
literal patterns. -/
def alookup {α β : Type} [DecidableEq α] : List (α × β) → α → Option β
  | [], _ => none
  | p :: ps, a => if p.1 = a then some p.2 else alookup ps a

/-- The special Dim-kind naming of `gen_value_enum_operand_kind`: enumerant
symbols of the kind named "Dim" can start with a digit, so the canonical name
is the symbol preceded by the kind name. -/
def dimName (kind symbol : String) : String :=
  if kind = "Dim" then "Dim" ++ symbol else symbol

/-- `capability_clauses.entry(&e.capabilities).or_insert_with(Vec::new).push(name)`:
append `n` to the group keyed `key`, creating the group if absent.  (The Rust
map is a `BTreeMap`, which only changes the iteration order of the groups, not
their contents.) -/
def insertClause (cs : List (List String × List String)) (key : List String) (n : String) :
    List (List String × List String) :=
  match cs with
  | [] => [(key, [n])]
  | c :: cs' => if c.1 = key then (c.1, c.2 ++ [n]) :: cs' else c :: insertClause cs' key n

/-- The accumulated state of the enumerant loop in
`gen_value_enum_operand_kind`: the `seen_discriminator` map, the canonical
`enumerants` (name, value), the `from_prim` match arms (value, name), the
`aliases` constants (alias symbol, canonical name), and the
`capability_clauses` groups (capability list, names in the group). -/
structure ValueEnumGen where
  seen_discriminator : List (Nat × String)
  enumerants : List (String × Nat)
  from_prim : List (Nat × String)
  aliases : List (String × String)
  capability_clauses : List (List String × List String)
deriving DecidableEq

/-- One iteration of the enumerant loop of `gen_value_enum_operand_kind`. -/
def genStep (kind : String) (st : ValueEnumGen) (e : structs.Enumerant) : ValueEnumGen :=
  match alookup st.seen_discriminator e.value with
  | some discriminator =>
      { st with aliases := st.aliases ++ [(e.symbol, discriminator)] }
  | none =>
      let name := dimName kind e.symbol
      { seen_discriminator := st.seen_discriminator ++ [(e.value, name)]
        enumerants := st.enumerants ++ [(name, e.value)]
        from_prim := st.from_prim ++ [(e.value, name)]
        aliases := st.aliases
        capability_clauses := insertClause st.capability_clauses e.capabilities name }

/-- The enumerant loop of `gen_value_enum_operand_kind`, over the kind's
enumerants in declaration order, starting from empty accumulators. -/
def gen_value_enum_operand_kind (k : structs.OperandKind) : ValueEnumGen :=
  k.enumerants.foldl (genStep k.kind) ⟨[], [], [], [], []⟩

/-- Semantics of the generated `match n as u32` body: first arm whose literal
equals `m` yields its name, the wildcard arm yields `None`. -/
def decodeU32 (arms : List (Nat × String)) (m : Nat) : Option String :=
  alookup arms m

/-- Semantics of the generated `from_i64`: `n as u32` takes the low 32 bits of
the two's-complement representation, then the match arms are tried in order. -/
def from_i64 (arms : List (Nat × String)) (n : Int) : Option String :=
  decodeU32 arms (n % (2 : Int) ^ 32).toNat

/-- The Rust cast `n as i64` on a `u64` value: reinterpret the low 64 bits as
a two's-complement signed value. -/
def u64_as_i64 (n : Nat) : Int :=
  if n % 2 ^ 64 < 2 ^ 63 then ((n % 2 ^ 64 : Nat) : Int) else ((n % 2 ^ 64 : Nat) : Int) - 2 ^ 64

/-- Semantics of the generated `from_u64`: `Self::from_i64(n as i64)`. -/
def from_u64 (arms : List (Nat × String)) (n : Nat) : Option String :=
  from_i64 arms (u64_as_i64 n)

/-- Semantics of the generated `required_capabilities` match: the arms are the
capability groups, each listing its variants as an or-pattern; the first group
whose pattern mentions the variant returns that group's capability list. -/
def required_capabilities (cs : List (List String × List String)) (v : String) :
    Option (List String) :=
  (cs.find? (fun c => decide (v ∈ c.2))).map Prod.fst

/-- The content of a kind emitted by `gen_operand_kind`: a bit-enum constant
list or a value-enum generation state. -/
inductive GenKind
  | bitEnum : List (String × Nat) → GenKind
  | valueEnum : ValueEnumGen → GenKind
deriving DecidableEq

/-- `gen_bit_enum_operand_kind`: each enumerant becomes one named bit constant
at its value.  (The shouty-snake-case conversion of the symbol is part of the
external identifier-formatting collaborator and is not modelled.) -/
def gen_bit_enum_operand_kind (k : structs.OperandKind) : List (String × Nat) :=
  k.enumerants.map (fun e => (e.symbol, e.value))

/-- `gen_operand_kind`: dispatch on category; any category other than
`BitEnum` or `ValueEnum` yields `None`. -/
def gen_operand_kind (k : structs.OperandKind) : Option GenKind :=
  match k.category with
  | structs.Category.BitEnum => some (GenKind.bitEnum (gen_bit_enum_operand_kind k))
  | structs.Category.ValueEnum => some (GenKind.valueEnum (gen_value_enum_operand_kind k))
  | structs.Category.Other => none

/-- The abstract content of the header emitted by `gen_spirv_header`:
constants, the successfully handled kinds, the `Op` enumeration members
(name, opcode) and the `Op::from_i64` match arms (opcode, name). -/
structure Header where
  magic_number : Nat
  major_version : Nat
  minor_version : Nat
  revision : Nat
  kinds : List GenKind
  op_enumerants : List (String × Nat)
  op_from_prim : List (Nat × String)

/-- `gen_spirv_header`: kinds filtered through `gen_operand_kind`; each
instruction's `Op` member is its opname with the two-character "Op" prefix
removed, at its opcode. -/
def gen_spirv_header (g : structs.Grammar) : Header :=
  { magic_number := g.magic_number
    major_version := g.major_version
    minor_version := g.minor_version
    revision := g.revision
    kinds := g.operand_kinds.filterMap gen_operand_kind
    op_enumerants := g.instructions.map (fun i => (i.opname.drop 2, i.opcode))
    op_from_prim := g.instructions.map (fun i => (i.opcode, i.opname.drop 2)) }

namespace dr

/-- A data-representation operand, restricted to the constructors the
annotation builder uses: identifier reference, 32-bit literal integer, and
decoration kind (the decoration enum is represented by its name). -/
inductive Operand
  | IdRef : Nat → Operand
  | LiteralInt32 : Nat → Operand
  | Decoration : String → Operand
deriving DecidableEq

/-- Modelled from the spec: an instruction record is an opcode (represented by
its name), an optional result-type id, an optional result id, and an ordered
operand list (the record struct itself is outside the given sources). -/
structure Instruction where
  opcode : String
  result_type : Option Nat
  result_id : Option Nat
  operands : List Operand
deriving DecidableEq

/-- `dr::Instruction::new`. -/
def Instruction.new (opcode : String) (result_type result_id : Option Nat)
    (operands : List Operand) : Instruction :=
  ⟨opcode, result_type, result_id, operands⟩

/-- Modelled from the spec: a module has a metadata (annotations) section and
other sections; the builder functions only touch the annotations, so the other
sections are collapsed into one `rest` field (the module struct itself is
outside the given sources). -/
structure Module where
  annotations : List Instruction
  rest : List Instruction
deriving DecidableEq

/-- Modelled from the spec: the builder owns the module under construction
(the builder struct itself is outside the given sources). -/
structure Builder where
  module : Module
deriving DecidableEq

/-- `Builder::decorate`. -/
def Builder.decorate (b : Builder) (target : Nat) (decoration : String)
    (additional_params : List Operand) : Builder :=
  let inst := Instruction.new "Decorate" none none
    [Operand.IdRef target, Operand.Decoration decoration]
  let inst := { inst with operands := inst.operands ++ additional_params }
  { b with module := { b.module with annotations := b.module.annotations ++ [inst] } }

/-- `Builder::member_decorate`. -/
def Builder.member_decorate (b : Builder) (structure_type : Nat) (member : Nat)
    (decoration : String) (additional_params : List Operand) : Builder :=
  let inst := Instruction.new "MemberDecorate" none none
    [Operand.IdRef structure_type, Operand.LiteralInt32 member, Operand.Decoration decoration]
  let inst := { inst with operands := inst.operands ++ additional_params }
  { b with module := { b.module with annotations := b.module.annotations ++ [inst] } }

/-- `Builder::group_decorate`: the loop pushes one `IdRef` per target. -/
def Builder.group_decorate (b : Builder) (decoration_group : Nat) (targets : List Nat) :
    Builder :=
  let inst := Instruction.new "GroupDecorate" none none [Operand.IdRef decoration_group]
  let inst := { inst with
    operands := targets.foldl (fun ops v => ops ++ [Operand.IdRef v]) inst.operands }
  { b with module := { b.module with annotations := b.module.annotations ++ [inst] } }

/-- `Builder::group_member_decorate`: the loop pushes `IdRef v.0` then
`LiteralInt32 v.1` per pair. -/
def Builder.group_member_decorate (b : Builder) (decoration_group : Nat)
    (targets : List (Nat × Nat)) : Builder :=
  let inst := Instruction.new "GroupMemberDecorate" none none [Operand.IdRef decoration_group]
  let inst := { inst with
    operands := targets.foldl
      (fun ops v => ops ++ [Operand.IdRef v.1, Operand.LiteralInt32 v.2]) inst.operands }
  { b with module := { b.module with annotations := b.module.annotations ++ [inst] } }

/-- `Builder::decorate_id`. -/
def Builder.decorate_id (b : Builder) (target : Nat) (decoration : String)
    (additional_params : List Operand) : Builder :=
  let inst := Instruction.new "DecorateId" none none
    [Operand.IdRef target, Operand.Decoration decoration]
  let inst := { inst with operands := inst.operands ++ additional_params }
  { b with module := { b.module with annotations := b.module.annotations ++ [inst] } }

/-- `Builder::subgroup_image_media_block_read_intel`: note that the
`result_type` argument is not used in the built instruction. -/
def Builder.subgroup_image_media_block_read_intel (b : Builder) (result_type : Nat)
    (image : Nat) (coordinate : Nat) (width : Nat) (height : Nat) : Builder :=
  let inst := Instruction.new "SubgroupImageMediaBlockReadINTEL" none none
    [Operand.IdRef image, Operand.IdRef coordinate, Operand.IdRef width, Operand.IdRef height]
  { b with module := { b.module with annotations := b.module.annotations ++ [inst] } }

/-- `Builder::member_decorate_string_google`. -/
def Builder.member_decorate_string_google (b : Builder) (struct_type : Nat) (member : Nat)
    (decoration : String) (additional_params : List Operand) : Builder :=
  let inst := Instruction.new "MemberDecorateStringGOOGLE" none none
    [Operand.IdRef struct_type, Operand.LiteralInt32 member, Operand.Decoration decoration]
  let inst := { inst with operands := inst.operands ++ additional_params }
  { b with module := { b.module with annotations := b.module.annotations ++ [inst] } }

end dr

/-- A builder over an empty module, used for concrete instances. -/
def emptyBuilder : dr.Builder := ⟨⟨[], []⟩⟩

/-- A concrete value-enum operand kind used for concrete instances. -/
def kindA : structs.OperandKind :=
  ⟨structs.Category.ValueEnum, "Acc",
    [⟨"X", 0, ["CapA"]⟩, ⟨"Y", 0, []⟩, ⟨"Z", 5, ["CapA"]⟩, ⟨"W", 7, []⟩]⟩

/-- A concrete Dim kind with an aliasing enumerant, used for concrete
instances. -/
def dimKindCex : structs.OperandKind :=
  ⟨structs.Category.ValueEnum, "Dim", [⟨"1D", 0, []⟩, ⟨"2D", 0, []⟩]⟩

/-- A concrete grammar used for concrete instances. -/
def grammarA : structs.Grammar :=
  { magic_number := 0x07230203
    major_version := 1
    minor_version := 3
    revision := 7
    operand_kinds := [kindA, dimKindCex]
    instructions := [⟨"OpNop", 0⟩, ⟨"OpUndef", 1⟩, ⟨"OpSourceContinued", 2⟩] }

/-! ### Association-list lemmas -/

theorem alookup_append_some {α β : Type} [DecidableEq α] {l1 : List (α × β)}
    (l2 : List (α × β)) {a : α} {b : β} (h : alookup l1 a = some b) :
    alookup (l1 ++ l2) a = some b := by
  induction l1 with
  | nil => simp [alookup] at h
  | cons p ps ih =>
    by_cases hp : p.1 = a
    · simp_all [alookup]
    · simp only [alookup, hp, if_neg] at h ⊢
      exact ih h

theorem alookup_append_none {α β : Type} [DecidableEq α] {l1 : List (α × β)}
    (l2 : List (α × β)) {a : α} (h : alookup l1 a = none) :
    alookup (l1 ++ l2) a = alookup l2 a := by
  induction l1 with
  | nil => simp [alookup]
  | cons p ps ih =>
    by_cases hp : p.1 = a
    · simp_all [alookup]
    · simp only [alookup, hp, if_neg] at h ⊢
      exact ih h

theorem alookup_mem {α β : Type} [DecidableEq α] {l : List (α × β)} {a : α} {b : β}
    (h : alookup l a = some b) : (a, b) ∈ l := by
  induction l with
  | nil => simp [alookup] at h
  | cons p ps ih =>
    by_cases hp : p.1 = a
    · simp only [alookup, hp, if_pos] at h
      cases h
      have hpa : (a, p.2) = p := by
        cases p
        simp_all
      rw [hpa]
      exact List.mem_cons_self _ _
    · simp only [alookup, hp, if_neg] at h
      exact List.mem_cons_of_mem _ (ih h)

theorem alookup_eq_none_iff {α β : Type} [DecidableEq α] {l : List (α × β)} {a : α} :
    alookup l a = none ↔ a ∉ l.map Prod.fst := by
  induction l with
  | nil => simp [alookup]
  | cons p ps ih =>
    by_cases hp : p.1 = a
    · simp [alookup, hp]
    · rw [alookup, if_neg hp, ih]
      constructor
      · intro h hmem
        rw [List.map_cons, List.mem_cons] at hmem
        rcases hmem with h1 | h1
        · exact hp h1.symm
        · exact h h1
      · intro h hmem
        exact h (by rw [List.map_cons, List.mem_cons]; right; exact hmem)

theorem alookup_singleton_same {α β : Type} [DecidableEq α] (a : α) (b : β) :
    alookup [(a, b)] a = some b := by
  simp [alookup]

theorem alookup_singleton_other {α β : Type} [DecidableEq α] {a a' : α} (b : β)
    (h : a' ≠ a) : alookup [(a', b)] a = none := by
  simp [alookup, h]

/-! ### Step lemmas for the enumerant loop -/

theorem genStep_alias (kind : String) (st : ValueEnumGen) (e : structs.Enumerant)
    {d : String} (h : alookup st.seen_discriminator e.value = some d) :
    genStep kind st e = { st with aliases := st.aliases ++ [(e.symbol, d)] } := by
  simp [genStep, h]

theorem genStep_new (kind : String) (st : ValueEnumGen) (e : structs.Enumerant)
    (h : alookup st.seen_discriminator e.value = none) :
    genStep kind st e =
      { seen_discriminator := st.seen_discriminator ++ [(e.value, dimName kind e.symbol)]
        enumerants := st.enumerants ++ [(dimName kind e.symbol, e.value)]
        from_prim := st.from_prim ++ [(e.value, dimName kind e.symbol)]
        aliases := st.aliases
        capability_clauses := insertClause st.capability_clauses e.capabilities
          (dimName kind e.symbol) } := by
  simp [genStep, h]

/-! ### Invariants of the enumerant loop -/

theorem genFold_from_prim_eq_seen (kind : String) (es : List structs.Enumerant)
    (st : ValueEnumGen) (h : st.from_prim = st.seen_discriminator) :
    (es.foldl (genStep kind) st).from_prim =
      (es.foldl (genStep kind) st).seen_discriminator := by
  induction es generalizing st with
  | nil => simpa using h
  | cons e es ih =>
    simp only [List.foldl_cons]
    apply ih
    cases halo : alookup st.seen_discriminator e.value with
    | some d => rw [genStep_alias kind st e halo]; exact h
    | none => rw [genStep_new kind st e halo]; simp [h]

theorem genFold_enumerants_eq_seen (kind : String) (es : List structs.Enumerant)
    (st : ValueEnumGen)
    (h : st.enumerants = st.seen_discriminator.map (fun p => (p.2, p.1))) :
    (es.foldl (genStep kind) st).enumerants =
      (es.foldl (genStep kind) st).seen_discriminator.map (fun p => (p.2, p.1)) := by
  induction es generalizing st with
  | nil => simpa using h
  | cons e es ih =>
    simp only [List.foldl_cons]
    apply ih
    cases halo : alookup st.seen_discriminator e.value with
    | some d => rw [genStep_alias kind st e halo]; exact h
    | none => rw [genStep_new kind st e halo]; simp [h]

theorem genFold_seen_mono (kind : String) (es : List structs.Enumerant) (st : ValueEnumGen) :
    ∃ t, (es.foldl (genStep kind) st).seen_discriminator = st.seen_discriminator ++ t := by
  induction es generalizing st with
  | nil => exact ⟨[], by simp⟩
  | cons e es ih =>
    simp only [List.foldl_cons]
    cases halo : alookup st.seen_discriminator e.value with
    | some d =>
      rw [genStep_alias kind st e halo]
      exact ih _
    | none =>
      rw [genStep_new kind st e halo]
      obtain ⟨t, ht⟩ := ih
        { seen_discriminator := st.seen_discriminator ++ [(e.value, dimName kind e.symbol)]
          enumerants := st.enumerants ++ [(dimName kind e.symbol, e.value)]
          from_prim := st.from_prim ++ [(e.value, dimName kind e.symbol)]
          aliases := st.aliases
          capability_clauses := insertClause st.capability_clauses e.capabilities
            (dimName kind e.symbol) }
      exact ⟨(e.value, dimName kind e.symbol) :: t, by simpa using ht⟩

theorem genFold_enumerants_mono (kind : String) (es : List structs.Enumerant)
    (st : ValueEnumGen) :
    ∃ t, (es.foldl (genStep kind) st).enumerants = st.enumerants ++ t := by
  induction es generalizing st with
  | nil => exact ⟨[], by simp⟩
  | cons e es ih =>
    simp only [List.foldl_cons]
    cases halo : alookup st.seen_discriminator e.value with
    | some d =>
      rw [genStep_alias kind st e halo]
      exact ih _
    | none =>
      rw [genStep_new kind st e halo]
      obtain ⟨t, ht⟩ := ih
        { seen_discriminator := st.seen_discriminator ++ [(e.value, dimName kind e.symbol)]
          enumerants := st.enumerants ++ [(dimName kind e.symbol, e.value)]
          from_prim := st.from_prim ++ [(e.value, dimName kind e.symbol)]
          aliases := st.aliases
          capability_clauses := insertClause st.capability_clauses e.capabilities
            (dimName kind e.symbol) }
      exact ⟨(dimName kind e.symbol, e.value) :: t, by simpa using ht⟩

theorem genFold_alookup_stable (kind : String) (es : List structs.Enumerant)
    (st : ValueEnumGen) (v : Nat) {n : String}
    (h : alookup st.seen_discriminator v = some n) :
    alookup (es.foldl (genStep kind) st).seen_discriminator v = some n := by
  obtain ⟨t, ht⟩ := genFold_seen_mono kind es st
  rw [ht]
  exact alookup_append_some t h

/-- The final `seen_discriminator` lookup at a value not yet seen is the first
enumerant of the list carrying that value, under the canonical naming. -/
theorem genFold_alookup_fresh (kind : String) (es : List structs.Enumerant)
    (st : ValueEnumGen) (v : Nat)
    (h : alookup st.seen_discriminator v = none) :
    alookup (es.foldl (genStep kind) st).seen_discriminator v =
      (es.find? (fun e => e.value == v)).map (fun e => dimName kind e.symbol) := by
  induction es generalizing st with
  | nil => simpa using h
  | cons e es ih =>
    simp only [List.foldl_cons]
    by_cases hv : e.value = v
    · subst hv
      rw [genStep_new kind st e h]
      have hstep : alookup (st.seen_discriminator ++ [(e.value, dimName kind e.symbol)])
          e.value = some (dimName kind e.symbol) := by
        rw [alookup_append_none _ h]
        exact alookup_singleton_same _ _
      rw [genFold_alookup_stable kind es _ e.value hstep]
      simp [List.find?_cons]
    · have hfind : (e.value == v) = false := by
        simpa using hv
      rw [List.find?_cons, hfind]
      cases halo : alookup st.seen_discriminator e.value with
      | some d =>
        rw [genStep_alias kind st e halo]
        exact ih _ h
      | none =>
        rw [genStep_new kind st e halo]
        apply ih
        rw [alookup_append_none _ h]
        exact alookup_singleton_other _ hv

theorem genFold_seen_keys_nodup (kind : String) (es : List structs.Enumerant)
    (st : ValueEnumGen) (h : (st.seen_discriminator.map Prod.fst).Nodup) :
    ((es.foldl (genStep kind) st).seen_discriminator.map Prod.fst).Nodup := by
  induction es generalizing st with
  | nil => simpa using h
  | cons e es ih =>
    simp only [List.foldl_cons]
    cases halo : alookup st.seen_discriminator e.value with
    | some d =>
      rw [genStep_alias kind st e halo]
      exact ih _ h
    | none =>
      rw [genStep_new kind st e halo]
      apply ih
      simp only [List.map_append, List.map_cons, List.map_nil]
      rw [List.nodup_append]
      refine ⟨h, List.nodup_singleton _, ?_⟩
      intro x hx hx'
      rw [List.mem_singleton] at hx'
      subst hx'
      exact (alookup_eq_none_iff.mp halo) hx

theorem genFold_aliases_mono (kind : String) (es : List structs.Enumerant)
    (st : ValueEnumGen) :
    ∃ t, (es.foldl (genStep kind) st).aliases = st.aliases ++ t := by
  induction es generalizing st with
  | nil => exact ⟨[], by simp⟩
  | cons e es ih =>
    simp only [List.foldl_cons]
    cases halo : alookup st.seen_discriminator e.value with
    | some d =>
      rw [genStep_alias kind st e halo]
      obtain ⟨t, ht⟩ := ih { st with aliases := st.aliases ++ [(e.symbol, d)] }
      exact ⟨(e.symbol, d) :: t, by simpa using ht⟩
    | none =>
      rw [genStep_new kind st e halo]
      exact ih _

theorem genFold_enumerants_provenance (kind : String) (es : List structs.Enumerant)
    (st : ValueEnumGen) :
    ∀ p ∈ (es.foldl (genStep kind) st).enumerants,
      p ∈ st.enumerants ∨ ∃ e ∈ es, p = (dimName kind e.symbol, e.value) := by
  induction es generalizing st with
  | nil =>
    intro p hp
    exact Or.inl (by simpa using hp)
  | cons e es ih =>
    intro p hp
    simp only [List.foldl_cons] at hp
    cases halo : alookup st.seen_discriminator e.value with
    | some d =>
      rw [genStep_alias kind st e halo] at hp
      rcases ih _ p hp with h | ⟨e', he', hpe⟩
      · exact Or.inl h
      · exact Or.inr ⟨e', List.mem_cons_of_mem _ he', hpe⟩
    | none =>
      rw [genStep_new kind st e halo] at hp
      rcases ih _ p hp with h | ⟨e', he', hpe⟩
      · rcases List.mem_append.mp h with h1 | h1
        · exact Or.inl h1
        · rw [List.mem_singleton] at h1
          exact Or.inr ⟨e, List.mem_cons_self _ _, h1⟩
      · exact Or.inr ⟨e', List.mem_cons_of_mem _ he', hpe⟩

theorem genFold_aliases_provenance (kind : String) (es : List structs.Enumerant)
    (st : ValueEnumGen) :
    ∀ a ∈ (es.foldl (genStep kind) st).aliases,
      a ∈ st.aliases ∨ ∃ e ∈ es, a.1 = e.symbol := by
  induction es generalizing st with
  | nil =>
    intro a ha
    exact Or.inl (by simpa using ha)
  | cons e es ih =>
    intro a ha
    simp only [List.foldl_cons] at ha
    cases halo : alookup st.seen_discriminator e.value with
    | some d =>
      rw [genStep_alias kind st e halo] at ha
      rcases ih _ a ha with h | ⟨e', he', hae⟩
      · rcases List.mem_append.mp h with h1 | h1
        · exact Or.inl h1
        · rw [List.mem_singleton] at h1
          exact Or.inr ⟨e, List.mem_cons_self _ _, by rw [h1]⟩
      · exact Or.inr ⟨e', List.mem_cons_of_mem _ he', hae⟩
    | none =>
      rw [genStep_new kind st e halo] at ha
      rcases ih _ a ha with h | ⟨e', he', hae⟩
      · exact Or.inl h
      · exact Or.inr ⟨e', List.mem_cons_of_mem _ he', hae⟩

/-! ### Claim C1 -/

/-- C1: for every closed-enumeration operand kind, the generated `from_i64`
returns `Some` of the canonical enumerant (the first enumerant declared with
the given discriminator, under the canonical naming) when given any declared
discriminator value, and returns `None` when given any 32-bit value that is
not a declared discriminator: the decode result is exactly the first-declared
enumerant found for the value, or `None` when there is none. -/
theorem valueEnum_from_i64_correct (k : structs.OperandKind) (v : Nat)
    (hv : v < 2 ^ 32) :
    from_i64 (gen_value_enum_operand_kind k).from_prim (v : Int) =
      (k.enumerants.find? (fun e => e.value == v)).map
        (fun e => dimName k.kind e.symbol) := by
  have hmod : ((v : Int) % (2 : Int) ^ 32).toNat = v := by omega
  unfold from_i64 decodeU32
  rw [hmod, gen_value_enum_operand_kind,
    genFold_from_prim_eq_seen k.kind k.enumerants
      (⟨[], [], [], [], []⟩ : ValueEnumGen) rfl]
  exact genFold_alookup_fresh k.kind k.enumerants
    (⟨[], [], [], [], []⟩ : ValueEnumGen) v rfl

/-- C1 witness: at the concrete kind `kindA`, value 0 decodes to the first
declared enumerant "X" and the undeclared value 6 decodes to `None`. -/
theorem valueEnum_from_i64_correct_witness :
    from_i64 (gen_value_enum_operand_kind kindA).from_prim ((0 : Nat) : Int) = some "X" ∧
    from_i64 (gen_value_enum_operand_kind kindA).from_prim ((6 : Nat) : Int) = none := by
  constructor
  · rw [valueEnum_from_i64_correct kindA 0 (by norm_num)]
    decide
  · rw [valueEnum_from_i64_correct kindA 6 (by norm_num)]
    decide

/-! ### Claim C2 -/

/-- C2: processing enumerants in declaration order, the first enumerant
declared with a given discriminator becomes the canonical variant, and every
later enumerant with the same discriminator becomes an alias constant bound to
the canonical variant (which carries that same discriminator value); the
discriminator-to-canonical-symbol mapping is a function (the canonical
variants' values are pairwise distinct). -/
theorem valueEnum_canonical_alias (k : structs.OperandKind)
    (es1 : List structs.Enumerant) (e : structs.Enumerant) (es2 : List structs.Enumerant)
    (h : k.enumerants = es1 ++ e :: es2) :
    ((gen_value_enum_operand_kind k).enumerants.map Prod.snd).Nodup ∧
    (match es1.find? (fun x => x.value == e.value) with
     | none =>
         (dimName k.kind e.symbol, e.value) ∈ (gen_value_enum_operand_kind k).enumerants
     | some f =>
         (e.symbol, dimName k.kind f.symbol) ∈ (gen_value_enum_operand_kind k).aliases ∧
         (dimName k.kind f.symbol, e.value) ∈ (gen_value_enum_operand_kind k).enumerants) := by
  have hseen : (gen_value_enum_operand_kind k).enumerants =
      (gen_value_enum_operand_kind k).seen_discriminator.map (fun p => (p.2, p.1)) := by
    rw [gen_value_enum_operand_kind]
    exact genFold_enumerants_eq_seen k.kind k.enumerants _ rfl
  have hsplit : gen_value_enum_operand_kind k =
      (e :: es2).foldl (genStep k.kind)
        (es1.foldl (genStep k.kind) (⟨[], [], [], [], []⟩ : ValueEnumGen)) := by
    rw [gen_value_enum_operand_kind, h, List.foldl_append]
  have hst1 : alookup (es1.foldl (genStep k.kind)
      (⟨[], [], [], [], []⟩ : ValueEnumGen)).seen_discriminator e.value =
      (es1.find? (fun x => x.value == e.value)).map (fun x => dimName k.kind x.symbol) :=
    genFold_alookup_fresh k.kind es1 _ e.value rfl
  refine ⟨?_, ?_⟩
  · rw [hseen, List.map_map]
    have hcomp : (Prod.snd ∘ fun p : Nat × String => (p.2, p.1)) = Prod.fst := rfl
    rw [hcomp, gen_value_enum_operand_kind]
    exact genFold_seen_keys_nodup k.kind k.enumerants _ (by simp)
  cases hfind : es1.find? (fun x => x.value == e.value) with
  | none =>
    rw [hfind, Option.map_none'] at hst1
    have hstable : alookup (gen_value_enum_operand_kind k).seen_discriminator e.value =
        some (dimName k.kind e.symbol) := by
      rw [hsplit]
      simp only [List.foldl_cons]
      rw [genStep_new k.kind _ e hst1]
      apply genFold_alookup_stable
      show alookup ((es1.foldl (genStep k.kind)
        (⟨[], [], [], [], []⟩ : ValueEnumGen)).seen_discriminator ++
          [(e.value, dimName k.kind e.symbol)]) e.value = _
      rw [alookup_append_none _ hst1]
      exact alookup_singleton_same _ _
    rw [hseen]
    exact List.mem_map_of_mem _ (alookup_mem hstable)
  | some f =>
    rw [hfind, Option.map_some'] at hst1
    refine ⟨?_, ?_⟩
    · rw [hsplit]
      simp only [List.foldl_cons]
      rw [genStep_alias k.kind _ e hst1]
      obtain ⟨t, ht⟩ := genFold_aliases_mono k.kind es2
        { es1.foldl (genStep k.kind) (⟨[], [], [], [], []⟩ : ValueEnumGen) with
          aliases := (es1.foldl (genStep k.kind)
            (⟨[], [], [], [], []⟩ : ValueEnumGen)).aliases ++
              [(e.symbol, dimName k.kind f.symbol)] }
      rw [ht]
      apply List.mem_append_left
      apply List.mem_append_right
      exact List.mem_singleton_self _
    · have hstable : alookup (gen_value_enum_operand_kind k).seen_discriminator e.value =
          some (dimName k.kind f.symbol) := by
        rw [hsplit]
        simp only [List.foldl_cons]
        rw [genStep_alias k.kind _ e hst1]
        exact genFold_alookup_stable k.kind es2 _ e.value hst1
      rw [hseen]
      exact List.mem_map_of_mem _ (alookup_mem hstable)

/-- C2 witness: at the concrete kind `kindA`, the enumerant "Y" (second
declared with discriminator 0) becomes an alias of the canonical "X". -/
theorem valueEnum_canonical_alias_witness :
    ((gen_value_enum_operand_kind kindA).enumerants.map Prod.snd).Nodup ∧
    (match [(⟨"X", 0, ["CapA"]⟩ : structs.Enumerant)].find?
        (fun x => x.value == (⟨"Y", 0, []⟩ : structs.Enumerant).value) with
     | none =>
         (dimName kindA.kind (⟨"Y", 0, []⟩ : structs.Enumerant).symbol,
           (⟨"Y", 0, []⟩ : structs.Enumerant).value) ∈
             (gen_value_enum_operand_kind kindA).enumerants
     | some f =>
         ((⟨"Y", 0, []⟩ : structs.Enumerant).symbol, dimName kindA.kind f.symbol) ∈
             (gen_value_enum_operand_kind kindA).aliases ∧
         (dimName kindA.kind f.symbol,
           (⟨"Y", 0, []⟩ : structs.Enumerant).value) ∈
             (gen_value_enum_operand_kind kindA).enumerants) :=
  valueEnum_canonical_alias kindA [⟨"X", 0, ["CapA"]⟩] ⟨"Y", 0, []⟩
    [⟨"Z", 5, ["CapA"]⟩, ⟨"W", 7, []⟩] rfl

/-! ### Claim C4 -/

theorem alookup_map_opcode (l : List structs.Instruction) (inst : structs.Instruction)
    (hmem : inst ∈ l) (hnodup : (l.map structs.Instruction.opcode).Nodup) :
    alookup (l.map (fun i => (i.opcode, i.opname.drop 2))) inst.opcode =
      some (inst.opname.drop 2) := by
  induction l with
  | nil => simp at hmem
  | cons i l ih =>
    simp only [List.map_cons, List.nodup_cons] at hnodup
    by_cases hop : i.opcode = inst.opcode
    · rcases List.mem_cons.mp hmem with h1 | h1
      · subst h1
        simp [alookup]
      · exact absurd (hop ▸ List.mem_map_of_mem structs.Instruction.opcode h1) hnodup.1
    · have h1 : inst ∈ l := by
        rcases List.mem_cons.mp hmem with h2 | h2
        · exact absurd (h2 ▸ rfl) hop
        · exact h2
      simp only [List.map_cons, alookup, hop, if_neg, not_false_iff]
      exact ih h1 hnodup.2

/-- C4: for every `(opname, opcode)` pair in the core instruction grammar,
with `opname` at least two characters long, opcodes unique (the spec's trusted
precondition) and in u32 range, the generated `Op` enumeration contains the
member named `opname` with its first two characters removed at the value
`opcode`, and the generated decode procedure maps `opcode` to `Some` of that
member. -/
theorem op_decode_correct (g : structs.Grammar) (inst : structs.Instruction)
    (hmem : inst ∈ g.instructions)
    (hlen : 2 ≤ inst.opname.length)
    (hnodup : (g.instructions.map structs.Instruction.opcode).Nodup)
    (hcode : inst.opcode < 2 ^ 32) :
    (inst.opname.drop 2, inst.opcode) ∈ (gen_spirv_header g).op_enumerants ∧
    from_i64 (gen_spirv_header g).op_from_prim (inst.opcode : Int) =
      some (inst.opname.drop 2) := by
  constructor
  · exact List.mem_map_of_mem _ hmem
  · have hmod : ((inst.opcode : Int) % (2 : Int) ^ 32).toNat = inst.opcode := by omega
    unfold from_i64 decodeU32
    rw [hmod]
    exact alookup_map_opcode g.instructions inst hmem hnodup

/-- C4 witness: in the concrete grammar, "OpUndef" at opcode 1 yields the
member "Undef" and decoding 1 returns it. -/
theorem op_decode_correct_witness :
    ("Undef", 1) ∈ (gen_spirv_header grammarA).op_enumerants ∧
    from_i64 (gen_spirv_header grammarA).op_from_prim
      (((⟨"OpUndef", 1⟩ : structs.Instruction).opcode : Nat) : Int) = some "Undef" := by
  have h := op_decode_correct grammarA ⟨"OpUndef", 1⟩ (by decide) (by decide)
    (by decide) (by norm_num)
  exact ⟨h.1, h.2⟩

/-! ### Claim C9 -/

/-- C9: an operand kind whose category is neither flag-set nor closed
enumeration produces no output and signals no error: `gen_operand_kind`
returns `None` (it is a total function), and the header's kind list for a
grammar containing such a kind equals the kind list with that kind removed. -/
theorem unsupported_category_skipped (k : structs.OperandKind)
    (h : k.category = structs.Category.Other) :
    gen_operand_kind k = none ∧
    ∀ g : structs.Grammar, ∀ ks1 ks2 : List structs.OperandKind,
      g.operand_kinds = ks1 ++ k :: ks2 →
      (gen_spirv_header g).kinds = (ks1 ++ ks2).filterMap gen_operand_kind := by
  have hnone : gen_operand_kind k = none := by
    unfold gen_operand_kind
    rw [h]
  refine ⟨hnone, ?_⟩
  intro g ks1 ks2 hg
  show g.operand_kinds.filterMap gen_operand_kind = _
  rw [hg, List.filterMap_append, List.filterMap_append, List.filterMap_cons, hnone]

/-- C9 witness: a concrete kind of an unhandled category is omitted from the
generated header of a concrete grammar. -/
theorem unsupported_category_skipped_witness :
    gen_operand_kind ⟨structs.Category.Other, "IdRef", []⟩ = none ∧
    ∀ g : structs.Grammar, ∀ ks1 ks2 : List structs.OperandKind,
      g.operand_kinds = ks1 ++ (⟨structs.Category.Other, "IdRef", []⟩ : structs.OperandKind) :: ks2 →
      (gen_spirv_header g).kinds = (ks1 ++ ks2).filterMap gen_operand_kind :=
  unsupported_category_skipped ⟨structs.Category.Other, "IdRef", []⟩ rfl

/-! ### Claim C10 -/

/-- C10: every generated decode procedure depends only on the low 32 bits of
its input: `from_i64 n` equals `from_i64` of `n` reduced modulo `2^32`;
`from_u64 n` is `from_i64` of `n` cast to i64; and the negative input `-1`
decodes as its two's-complement 32-bit value `2^32 - 1` instead of returning
`None` outright. -/
theorem from_i64_low32_only :
    (∀ arms : List (Nat × String), ∀ n : Int,
        from_i64 arms n = from_i64 arms (n % 2 ^ 32)) ∧
    (∀ arms : List (Nat × String), ∀ n : Nat,
        from_u64 arms n = from_i64 arms (u64_as_i64 n)) ∧
    (∀ arms : List (Nat × String),
        from_i64 arms (-1) = decodeU32 arms (2 ^ 32 - 1)) := by
  refine ⟨?_, ?_, ?_⟩
  · intro arms n
    unfold from_i64
    congr 1
    omega
  · intro arms n
    rfl
  · intro arms
    unfold from_i64
    congr 1

/-! ### Capability-clause lemmas -/

theorem insertClause_cons_pos (c : List String × List String)
    (cs : List (List String × List String)) (key : List String) (n : String)
    (hc : c.1 = key) :
    insertClause (c :: cs) key n = (c.1, c.2 ++ [n]) :: cs := by
  simp [insertClause, hc]

theorem insertClause_cons_neg (c : List String × List String)
    (cs : List (List String × List String)) (key : List String) (n : String)
    (hc : ¬ c.1 = key) :
    insertClause (c :: cs) key n = c :: insertClause cs key n := by
  simp [insertClause, hc]

theorem insertClause_join_perm (cs : List (List String × List String))
    (key : List String) (n : String) :
    (((insertClause cs key n).map Prod.snd).flatten).Perm
      (((cs.map Prod.snd).flatten) ++ [n]) := by
  induction cs with
  | nil => simp [insertClause]
  | cons c cs ih =>
    by_cases hc : c.1 = key
    · rw [insertClause_cons_pos c cs key n hc]
      simp only [List.map_cons, List.flatten_cons]
      have h1 : (c.2 ++ [n]) ++ ((cs.map Prod.snd).flatten) =
          c.2 ++ ([n] ++ (cs.map Prod.snd).flatten) := by rw [List.append_assoc]
      have h2 : (c.2 ++ ((cs.map Prod.snd).flatten)) ++ [n] =
          c.2 ++ (((cs.map Prod.snd).flatten) ++ [n]) := by rw [List.append_assoc]
      rw [h1, h2]
      exact List.Perm.append_left c.2 List.perm_append_comm
    · rw [insertClause_cons_neg c cs key n hc]
      simp only [List.map_cons, List.flatten_cons]
      rw [List.append_assoc]
      exact List.Perm.append_left c.2 ih

theorem insertClause_keys_mem (cs : List (List String × List String))
    (key : List String) (n : String) (x : List String) :
    x ∈ (insertClause cs key n).map Prod.fst ↔ x ∈ cs.map Prod.fst ∨ x = key := by
  induction cs with
  | nil => simp [insertClause]
  | cons c cs ih =>
    by_cases hc : c.1 = key
    · rw [insertClause_cons_pos c cs key n hc]
      subst hc
      simp only [List.map_cons, List.mem_cons]
      tauto
    · rw [insertClause_cons_neg c cs key n hc]
      simp only [List.map_cons, List.mem_cons, ih]
      tauto

theorem insertClause_keys_nodup (cs : List (List String × List String))
    (key : List String) (n : String) (h : (cs.map Prod.fst).Nodup) :
    ((insertClause cs key n).map Prod.fst).Nodup := by
  induction cs with
  | nil => simp [insertClause]
  | cons c cs ih =>
    simp only [List.map_cons, List.nodup_cons] at h
    by_cases hc : c.1 = key
    · rw [insertClause_cons_pos c cs key n hc]
      simp only [List.map_cons, List.nodup_cons]
      exact h
    · rw [insertClause_cons_neg c cs key n hc]
      simp only [List.map_cons, List.nodup_cons]
      refine ⟨?_, ih h.2⟩
      intro hmem
      rcases (insertClause_keys_mem cs key n c.1).mp hmem with h1 | h1
      · exact h.1 h1
      · exact hc h1

theorem insertClause_alookup_self (cs : List (List String × List String))
    (key : List String) (n : String) :
    ∃ l, alookup (insertClause cs key n) key = some l ∧ n ∈ l := by
  induction cs with
  | nil =>
    refine ⟨[n], ?_, by simp⟩
    simp [insertClause, alookup]
  | cons c cs ih =>
    by_cases hc : c.1 = key
    · refine ⟨c.2 ++ [n], ?_, by simp⟩
      rw [insertClause_cons_pos c cs key n hc]
      simp [alookup, hc]
    · obtain ⟨l, hl, hn⟩ := ih
      refine ⟨l, ?_, hn⟩
      rw [insertClause_cons_neg c cs key n hc]
      simp only [alookup, hc, if_neg, not_false_iff]
      exact hl

theorem insertClause_alookup_mono (cs : List (List String × List String))
    (key' key : List String) (n : String) {l : List String}
    (h : alookup cs key' = some l) :
    ∃ l', alookup (insertClause cs key n) key' = some l' ∧ ∀ x ∈ l, x ∈ l' := by
  induction cs with
  | nil => simp [alookup] at h
  | cons c cs ih =>
    by_cases hck : c.1 = key'
    · simp only [alookup, hck, if_pos] at h
      cases h
      by_cases hc : c.1 = key
      · refine ⟨c.2 ++ [n], ?_, fun x hx => List.mem_append_left _ hx⟩
        rw [insertClause_cons_pos c cs key n hc]
        simp [alookup, hck]
      · refine ⟨c.2, ?_, fun x hx => hx⟩
        rw [insertClause_cons_neg c cs key n hc]
        simp [alookup, hck]
    · simp only [alookup, hck, if_neg, not_false_iff] at h
      by_cases hc : c.1 = key
      · refine ⟨l, ?_, fun x hx => hx⟩
        rw [insertClause_cons_pos c cs key n hc]
        simp only [alookup, hck, if_neg, not_false_iff]
        exact h
      · obtain ⟨l', hl', hsub⟩ := ih h
        refine ⟨l', ?_, hsub⟩
        rw [insertClause_cons_neg c cs key n hc]
        simp only [alookup, hck, if_neg, not_false_iff]
        exact hl'

theorem join_nodup_unique {α β : Type} (cs : List (α × List β))
    (h : ((cs.map Prod.snd).flatten).Nodup) {c1 c2 : α × List β} {x : β}
    (h1 : c1 ∈ cs) (h2 : c2 ∈ cs) (hx1 : x ∈ c1.2) (hx2 : x ∈ c2.2) : c1 = c2 := by
  induction cs with
  | nil => simp at h1
  | cons c cs ih =>
    simp only [List.map_cons, List.flatten_cons, List.nodup_append] at h
    rcases List.mem_cons.mp h1 with e1 | e1 <;> rcases List.mem_cons.mp h2 with e2 | e2
    · rw [e1, e2]
    · subst e1
      exact absurd (List.mem_flatten.mpr ⟨c2.2, List.mem_map_of_mem _ e2, hx2⟩)
        (fun hj => h.2.2 hx1 hj)
    · subst e2
      exact absurd (List.mem_flatten.mpr ⟨c1.2, List.mem_map_of_mem _ e1, hx1⟩)
        (fun hj => h.2.2 hx2 hj)
    · exact ih h.2.1 e1 e2

theorem genFold_clauses_flatten_perm (kind : String) (es : List structs.Enumerant)
    (st : ValueEnumGen)
    (h : ((st.capability_clauses.map Prod.snd).flatten).Perm
      (st.seen_discriminator.map Prod.snd)) :
    (((es.foldl (genStep kind) st).capability_clauses.map Prod.snd).flatten).Perm
      ((es.foldl (genStep kind) st).seen_discriminator.map Prod.snd) := by
  induction es generalizing st with
  | nil => simpa using h
  | cons e es ih =>
    simp only [List.foldl_cons]
    cases halo : alookup st.seen_discriminator e.value with
    | some d =>
      rw [genStep_alias kind st e halo]
      exact ih _ h
    | none =>
      rw [genStep_new kind st e halo]
      apply ih
      show (((insertClause st.capability_clauses e.capabilities
          (dimName kind e.symbol)).map Prod.snd).flatten).Perm
        ((st.seen_discriminator ++ [(e.value, dimName kind e.symbol)]).map Prod.snd)
      rw [List.map_append]
      exact (insertClause_join_perm st.capability_clauses e.capabilities
        (dimName kind e.symbol)).trans (h.append_right _)

theorem genFold_clause_keys_nodup (kind : String) (es : List structs.Enumerant)
    (st : ValueEnumGen) (h : (st.capability_clauses.map Prod.fst).Nodup) :
    (((es.foldl (genStep kind) st).capability_clauses.map Prod.fst)).Nodup := by
  induction es generalizing st with
  | nil => simpa using h
  | cons e es ih =>
    simp only [List.foldl_cons]
    cases halo : alookup st.seen_discriminator e.value with
    | some d =>
      rw [genStep_alias kind st e halo]
      exact ih _ h
    | none =>
      rw [genStep_new kind st e halo]
      exact ih _ (insertClause_keys_nodup st.capability_clauses e.capabilities
        (dimName kind e.symbol) h)

theorem genFold_clause_mem_mono (kind : String) (es : List structs.Enumerant)
    (st : ValueEnumGen) (key : List String) (x : String)
    (h : ∃ l, alookup st.capability_clauses key = some l ∧ x ∈ l) :
    ∃ l', alookup (es.foldl (genStep kind) st).capability_clauses key = some l' ∧
      x ∈ l' := by
  induction es generalizing st with
  | nil => simpa using h
  | cons e es ih =>
    simp only [List.foldl_cons]
    cases halo : alookup st.seen_discriminator e.value with
    | some d =>
      rw [genStep_alias kind st e halo]
      exact ih _ h
    | none =>
      rw [genStep_new kind st e halo]
      apply ih
      obtain ⟨l, hl, hx⟩ := h
      obtain ⟨l', hl', hsub⟩ := insertClause_alookup_mono st.capability_clauses key
        e.capabilities (dimName kind e.symbol) hl
      exact ⟨l', hl', hsub x hx⟩

/-! ### Claim C3 -/

/-- C3: for every closed-enumeration operand kind with distinct generated
variant names, the generated `required_capabilities` lookup is total and exact
over canonical enumerants: the capability groups partition the canonical
variants (their flattened variant lists are a permutation of the canonical
variant names, and the group keys are pairwise distinct), and looking up any
canonical enumerant returns exactly its source capability list (the empty
list when the enumerant declares no capabilities). -/
theorem valueEnum_required_capabilities_correct (k : structs.OperandKind)
    (hnames : ((gen_value_enum_operand_kind k).enumerants.map Prod.fst).Nodup) :
    (((gen_value_enum_operand_kind k).capability_clauses.map Prod.snd).flatten).Perm
        ((gen_value_enum_operand_kind k).enumerants.map Prod.fst) ∧
    ((gen_value_enum_operand_kind k).capability_clauses.map Prod.fst).Nodup ∧
    (∀ es1 : List structs.Enumerant, ∀ e : structs.Enumerant,
      ∀ es2 : List structs.Enumerant, k.enumerants = es1 ++ e :: es2 →
      es1.find? (fun x => x.value == e.value) = none →
      required_capabilities (gen_value_enum_operand_kind k).capability_clauses
        (dimName k.kind e.symbol) = some e.capabilities) := by
  have hseen : (gen_value_enum_operand_kind k).enumerants =
      (gen_value_enum_operand_kind k).seen_discriminator.map (fun p => (p.2, p.1)) := by
    rw [gen_value_enum_operand_kind]
    exact genFold_enumerants_eq_seen k.kind k.enumerants _ rfl
  have hmapeq : (gen_value_enum_operand_kind k).enumerants.map Prod.fst =
      (gen_value_enum_operand_kind k).seen_discriminator.map Prod.snd := by
    rw [hseen, List.map_map]
    rfl
  have hperm : (((gen_value_enum_operand_kind k).capability_clauses.map
      Prod.snd).flatten).Perm
      ((gen_value_enum_operand_kind k).enumerants.map Prod.fst) := by
    rw [hmapeq, gen_value_enum_operand_kind]
    exact genFold_clauses_flatten_perm k.kind k.enumerants
      (⟨[], [], [], [], []⟩ : ValueEnumGen) List.Perm.nil
  refine ⟨hperm, ?_, ?_⟩
  · rw [gen_value_enum_operand_kind]
    exact genFold_clause_keys_nodup k.kind k.enumerants
      (⟨[], [], [], [], []⟩ : ValueEnumGen) List.nodup_nil
  intro es1 e es2 hsp hfind
  have hst1 : alookup (es1.foldl (genStep k.kind)
      (⟨[], [], [], [], []⟩ : ValueEnumGen)).seen_discriminator e.value = none := by
    have h1 := genFold_alookup_fresh k.kind es1
      (⟨[], [], [], [], []⟩ : ValueEnumGen) e.value rfl
    rw [hfind, Option.map_none'] at h1
    exact h1
  have hdecomp : gen_value_enum_operand_kind k =
      (e :: es2).foldl (genStep k.kind)
        (es1.foldl (genStep k.kind) (⟨[], [], [], [], []⟩ : ValueEnumGen)) := by
    rw [gen_value_enum_operand_kind, hsp, List.foldl_append]
  obtain ⟨l, hl, hn⟩ := insertClause_alookup_self
    (es1.foldl (genStep k.kind)
      (⟨[], [], [], [], []⟩ : ValueEnumGen)).capability_clauses
    e.capabilities (dimName k.kind e.symbol)
  have hG : ∃ l', alookup (gen_value_enum_operand_kind k).capability_clauses
      e.capabilities = some l' ∧ dimName k.kind e.symbol ∈ l' := by
    rw [hdecomp]
    simp only [List.foldl_cons]
    rw [genStep_new k.kind _ e hst1]
    exact genFold_clause_mem_mono k.kind es2 _ e.capabilities _ ⟨l, hl, hn⟩
  obtain ⟨l', hl', hx⟩ := hG
  have hc0 : (e.capabilities, l') ∈ (gen_value_enum_operand_kind k).capability_clauses :=
    alookup_mem hl'
  have hnd : (((gen_value_enum_operand_kind k).capability_clauses.map
      Prod.snd).flatten).Nodup :=
    hperm.nodup_iff.mpr hnames
  cases hfq : (gen_value_enum_operand_kind k).capability_clauses.find?
      (fun c => decide (dimName k.kind e.symbol ∈ c.2)) with
  | none =>
    exfalso
    have h2 := List.find?_eq_none.mp hfq (e.capabilities, l') hc0
    exact h2 (decide_eq_true hx)
  | some c1 =>
    have hp : dimName k.kind e.symbol ∈ c1.2 := by
      have h3 := List.find?_some hfq
      exact of_decide_eq_true h3
    have hmem1 : c1 ∈ (gen_value_enum_operand_kind k).capability_clauses :=
      List.mem_of_find?_eq_some hfq
    have hc1 : c1 = (e.capabilities, l') :=
      join_nodup_unique (gen_value_enum_operand_kind k).capability_clauses hnd
        hmem1 hc0 hp hx
    unfold required_capabilities
    rw [hfq, hc1]
    rfl

/-- C3 witness at the concrete kind `kindA`: its capability groups partition
the canonical variants and looking up the canonical "Z" (first declared with
discriminator 5) returns its source capability list. -/
theorem valueEnum_required_capabilities_correct_witness :
    ((((gen_value_enum_operand_kind kindA).capability_clauses.map
        Prod.snd).flatten).Perm
      ((gen_value_enum_operand_kind kindA).enumerants.map Prod.fst) ∧
    ((gen_value_enum_operand_kind kindA).capability_clauses.map Prod.fst).Nodup ∧
    (∀ es1 : List structs.Enumerant, ∀ e : structs.Enumerant,
      ∀ es2 : List structs.Enumerant, kindA.enumerants = es1 ++ e :: es2 →
      es1.find? (fun x => x.value == e.value) = none →
      required_capabilities (gen_value_enum_operand_kind kindA).capability_clauses
        (dimName kindA.kind e.symbol) = some e.capabilities)) :=
  valueEnum_required_capabilities_correct kindA (by decide)

/-! ### Builder loop lemmas -/

theorem foldl_idref (ts : List Nat) (init : List dr.Operand) :
    ts.foldl (fun ops v => ops ++ [dr.Operand.IdRef v]) init =
      init ++ ts.map dr.Operand.IdRef := by
  induction ts generalizing init with
  | nil => simp
  | cons t ts ih =>
    simp only [List.foldl_cons, List.map_cons]
    rw [ih, List.append_assoc]
    rfl

theorem foldl_pair (ts : List (Nat × Nat)) (init : List dr.Operand) :
    ts.foldl (fun ops v => ops ++ [dr.Operand.IdRef v.1, dr.Operand.LiteralInt32 v.2])
        init =
      init ++ (ts.map (fun v =>
        [dr.Operand.IdRef v.1, dr.Operand.LiteralInt32 v.2])).flatten := by
  induction ts generalizing init with
  | nil => simp
  | cons t ts ih =>
    simp only [List.foldl_cons, List.map_cons, List.flatten_cons]
    rw [ih, List.append_assoc]

/-! ### Claim C5 -/

/-- C5 counterexample: calling `subgroup_image_media_block_read_intel` with
result_type 1, image 2, coordinate 3, width 4, height 5 appends a record whose
operand list holds only the four trailing identifier references; it is not
the five mandatory leading arguments in order: the leading `result_type`
argument is dropped, so the mandatory arguments do not map one-to-one onto
the record's operands. -/
theorem subgroup_image_media_block_read_intel_drops_result_type :
    (emptyBuilder.subgroup_image_media_block_read_intel 1 2 3 4 5).module.annotations =
      [dr.Instruction.new "SubgroupImageMediaBlockReadINTEL" none none
        [dr.Operand.IdRef 2, dr.Operand.IdRef 3, dr.Operand.IdRef 4,
         dr.Operand.IdRef 5]] ∧
    ¬ (emptyBuilder.subgroup_image_media_block_read_intel 1 2 3 4 5).module.annotations =
      [dr.Instruction.new "SubgroupImageMediaBlockReadINTEL" none none
        [dr.Operand.IdRef 1, dr.Operand.IdRef 2, dr.Operand.IdRef 3, dr.Operand.IdRef 4,
         dr.Operand.IdRef 5]] :=
  ⟨rfl, by decide⟩

/-- C5 (amended): for every constructor procedure emitted by the annotation
builder, the mandatory leading arguments map one-to-one, in order, onto the
built record's required operands — except `subgroup_image_media_block_read_intel`,
whose leading `result_type` argument is discarded and whose remaining four
identifier arguments map one-to-one, in order. -/
theorem builders_mandatory_args_in_order :
    (∀ b : dr.Builder, ∀ t : Nat, ∀ d : String, ∀ ps : List dr.Operand,
      (b.decorate t d ps).module.annotations = b.module.annotations ++
        [dr.Instruction.new "Decorate" none none
          ([dr.Operand.IdRef t, dr.Operand.Decoration d] ++ ps)]) ∧
    (∀ b : dr.Builder, ∀ s m : Nat, ∀ d : String, ∀ ps : List dr.Operand,
      (b.member_decorate s m d ps).module.annotations = b.module.annotations ++
        [dr.Instruction.new "MemberDecorate" none none
          ([dr.Operand.IdRef s, dr.Operand.LiteralInt32 m, dr.Operand.Decoration d] ++ ps)]) ∧
    (∀ b : dr.Builder, ∀ g : Nat, ∀ ts : List Nat,
      (b.group_decorate g ts).module.annotations = b.module.annotations ++
        [dr.Instruction.new "GroupDecorate" none none
          (dr.Operand.IdRef g :: ts.map dr.Operand.IdRef)]) ∧
    (∀ b : dr.Builder, ∀ g : Nat, ∀ ts : List (Nat × Nat),
      (b.group_member_decorate g ts).module.annotations = b.module.annotations ++
        [dr.Instruction.new "GroupMemberDecorate" none none
          (dr.Operand.IdRef g :: (ts.map (fun v =>
            [dr.Operand.IdRef v.1, dr.Operand.LiteralInt32 v.2])).flatten)]) ∧
    (∀ b : dr.Builder, ∀ t : Nat, ∀ d : String, ∀ ps : List dr.Operand,
      (b.decorate_id t d ps).module.annotations = b.module.annotations ++
        [dr.Instruction.new "DecorateId" none none
          ([dr.Operand.IdRef t, dr.Operand.Decoration d] ++ ps)]) ∧
    (∀ b : dr.Builder, ∀ rt i c w hgt : Nat,
      (b.subgroup_image_media_block_read_intel rt i c w hgt).module.annotations =
        b.module.annotations ++
        [dr.Instruction.new "SubgroupImageMediaBlockReadINTEL" none none
          [dr.Operand.IdRef i, dr.Operand.IdRef c, dr.Operand.IdRef w,
           dr.Operand.IdRef hgt]]) ∧
    (∀ b : dr.Builder, ∀ s m : Nat, ∀ d : String, ∀ ps : List dr.Operand,
      (b.member_decorate_string_google s m d ps).module.annotations =
        b.module.annotations ++
        [dr.Instruction.new "MemberDecorateStringGOOGLE" none none
          ([dr.Operand.IdRef s, dr.Operand.LiteralInt32 m, dr.Operand.Decoration d] ++ ps)]) := by
  refine ⟨fun b t d ps => rfl, fun b s m d ps => rfl, ?_, ?_,
    fun b t d ps => rfl, fun b rt i c w hgt => rfl, fun b s m d ps => rfl⟩
  · intro b g ts
    simp only [dr.Builder.group_decorate, foldl_idref]
    rfl
  · intro b g ts
    simp only [dr.Builder.group_member_decorate, foldl_pair]
    rfl

/-! ### Claim C7 -/

/-- C7: the group-member-decorate constructor with decoration group 9 and
pairs [(5, 2), (7, 3)] appends a record whose operand list is exactly
[IdRef 9, IdRef 5, LiteralInt32 2, IdRef 7, LiteralInt32 3]; in general each
(identifier, integer) pair is flattened into two consecutive operands,
identifier reference then literal integer, preserving list order. -/
theorem group_member_decorate_flattens_pairs :
    (∀ b : dr.Builder,
      (b.group_member_decorate 9 [(5, 2), (7, 3)]).module.annotations =
        b.module.annotations ++ [dr.Instruction.new "GroupMemberDecorate" none none
          [dr.Operand.IdRef 9, dr.Operand.IdRef 5, dr.Operand.LiteralInt32 2,
           dr.Operand.IdRef 7, dr.Operand.LiteralInt32 3]]) ∧
    (∀ b : dr.Builder, ∀ g : Nat, ∀ ts : List (Nat × Nat),
      (b.group_member_decorate g ts).module.annotations =
        b.module.annotations ++ [dr.Instruction.new "GroupMemberDecorate" none none
          (dr.Operand.IdRef g :: (ts.map (fun v =>
            [dr.Operand.IdRef v.1, dr.Operand.LiteralInt32 v.2])).flatten)]) := by
  have hgen : ∀ b : dr.Builder, ∀ g : Nat, ∀ ts : List (Nat × Nat),
      (b.group_member_decorate g ts).module.annotations =
        b.module.annotations ++ [dr.Instruction.new "GroupMemberDecorate" none none
          (dr.Operand.IdRef g :: (ts.map (fun v =>
            [dr.Operand.IdRef v.1, dr.Operand.LiteralInt32 v.2])).flatten)] := by
    intro b g ts
    simp only [dr.Builder.group_member_decorate, foldl_pair]
    rfl
  exact ⟨fun b => hgen b 9 [(5, 2), (7, 3)], hgen⟩

/-! ### Claim C8 -/

/-- C8: every annotation builder call appends exactly one instruction record
— with result-type `None` and result-id `None` — to the end of the module's
annotations list, leaving all previously appended records (the list prefix)
and the rest of the module unchanged; hence records appear in call order. -/
theorem builders_append_exactly_one :
    (∀ b : dr.Builder, ∀ t : Nat, ∀ d : String, ∀ ps : List dr.Operand,
      ∃ i : dr.Instruction, i.result_type = none ∧ i.result_id = none ∧
        (b.decorate t d ps).module.annotations = b.module.annotations ++ [i] ∧
        (b.decorate t d ps).module.rest = b.module.rest) ∧
    (∀ b : dr.Builder, ∀ s m : Nat, ∀ d : String, ∀ ps : List dr.Operand,
      ∃ i : dr.Instruction, i.result_type = none ∧ i.result_id = none ∧
        (b.member_decorate s m d ps).module.annotations = b.module.annotations ++ [i] ∧
        (b.member_decorate s m d ps).module.rest = b.module.rest) ∧
    (∀ b : dr.Builder, ∀ g : Nat, ∀ ts : List Nat,
      ∃ i : dr.Instruction, i.result_type = none ∧ i.result_id = none ∧
        (b.group_decorate g ts).module.annotations = b.module.annotations ++ [i] ∧
        (b.group_decorate g ts).module.rest = b.module.rest) ∧
    (∀ b : dr.Builder, ∀ g : Nat, ∀ ts : List (Nat × Nat),
      ∃ i : dr.Instruction, i.result_type = none ∧ i.result_id = none ∧
        (b.group_member_decorate g ts).module.annotations = b.module.annotations ++ [i] ∧
        (b.group_member_decorate g ts).module.rest = b.module.rest) ∧
    (∀ b : dr.Builder, ∀ t : Nat, ∀ d : String, ∀ ps : List dr.Operand,
      ∃ i : dr.Instruction, i.result_type = none ∧ i.result_id = none ∧
        (b.decorate_id t d ps).module.annotations = b.module.annotations ++ [i] ∧
        (b.decorate_id t d ps).module.rest = b.module.rest) ∧
    (∀ b : dr.Builder, ∀ rt i2 c w hgt : Nat,
      ∃ i : dr.Instruction, i.result_type = none ∧ i.result_id = none ∧
        (b.subgroup_image_media_block_read_intel rt i2 c w hgt).module.annotations =
          b.module.annotations ++ [i] ∧
        (b.subgroup_image_media_block_read_intel rt i2 c w hgt).module.rest =
          b.module.rest) ∧
    (∀ b : dr.Builder, ∀ s m : Nat, ∀ d : String, ∀ ps : List dr.Operand,
      ∃ i : dr.Instruction, i.result_type = none ∧ i.result_id = none ∧
        (b.member_decorate_string_google s m d ps).module.annotations =
          b.module.annotations ++ [i] ∧
        (b.member_decorate_string_google s m d ps).module.rest = b.module.rest) := by
  refine ⟨fun b t d ps => ⟨_, rfl, rfl, rfl, rfl⟩,
    fun b s m d ps => ⟨_, rfl, rfl, rfl, rfl⟩,
    fun b g ts => ⟨_, rfl, rfl, rfl, rfl⟩,
    fun b g ts => ⟨_, rfl, rfl, rfl, rfl⟩,
    fun b t d ps => ⟨_, rfl, rfl, rfl, rfl⟩,
    fun b rt i2 c w hgt => ⟨_, rfl, rfl, rfl, rfl⟩,
    fun b s m d ps => ⟨_, rfl, rfl, rfl, rfl⟩⟩

/-! ### Claim C6 -/

/-- C6 counterexample: in a Dim kind where the enumerant "2D" aliases the
canonical "1D" (both declared with discriminator 0), the emitted alias
binding keeps the bare symbol "2D"; so it is not the case that every emitted
symbol for the Dim kind — alias bindings included — is preceded with the
kind's own name. -/
theorem dim_alias_symbol_not_prefixed :
    ¬ ∀ a ∈ (gen_value_enum_operand_kind dimKindCex).aliases,
        ∃ e ∈ dimKindCex.enumerants, a.1 = "Dim" ++ e.symbol := by
  decide

/-- C6 (amended): for the Dim kind, every canonical variant symbol is the
source enumerant's symbol preceded with the kind's own name; alias bindings
keep the enumerant's declared symbol unprefixed. -/
theorem dim_canonical_symbols_prefixed (k : structs.OperandKind)
    (h : k.kind = "Dim") :
    (∀ p ∈ (gen_value_enum_operand_kind k).enumerants,
      ∃ e ∈ k.enumerants, p.1 = "Dim" ++ e.symbol ∧ p.2 = e.value) ∧
    (∀ a ∈ (gen_value_enum_operand_kind k).aliases,
      ∃ e ∈ k.enumerants, a.1 = e.symbol) := by
  constructor
  · intro p hp
    unfold gen_value_enum_operand_kind at hp
    rcases genFold_enumerants_provenance k.kind k.enumerants
        (⟨[], [], [], [], []⟩ : ValueEnumGen) p hp with h1 | ⟨e, he, hpe⟩
    · exact absurd h1 (List.not_mem_nil p)
    · refine ⟨e, he, ?_, ?_⟩
      · rw [hpe]
        simp [dimName, h]
      · rw [hpe]
  · intro a ha
    unfold gen_value_enum_operand_kind at ha
    rcases genFold_aliases_provenance k.kind k.enumerants
        (⟨[], [], [], [], []⟩ : ValueEnumGen) a ha with h1 | ⟨e, he, hae⟩
    · exact absurd h1 (List.not_mem_nil a)
    · exact ⟨e, he, hae⟩

/-- C6 (amended) witness at the concrete Dim kind `dimKindCex`. -/
theorem dim_canonical_symbols_prefixed_witness :
    (∀ p ∈ (gen_value_enum_operand_kind dimKindCex).enumerants,
      ∃ e ∈ dimKindCex.enumerants, p.1 = "Dim" ++ e.symbol ∧ p.2 = e.value) ∧
    (∀ a ∈ (gen_value_enum_operand_kind dimKindCex).aliases,
      ∃ e ∈ dimKindCex.enumerants, a.1 = e.symbol) :=
  dim_canonical_symbols_prefixed dimKindCex rfl
